import Mathlib

/-!
Shallow embedding of src/NQueensCSP.py (class NQueensCSP): an N-Queens
solver built from an AC-3 arc-consistency pass followed by backtracking
search with MRV variable selection and LCV value ordering.

Modelling conventions:
* A Python dict keyed by consecutive integers 0..n-1 is a Lean list
  indexed by position: the per-variable domains `self.domains` become
  `Doms := List (List Nat)` and `len(self.domains)` is `doms.length`.
* The mutable `assignment` dict is an insertion-ordered association list
  `Assignment := List (Nat × Nat)`; dict insertion of a fresh key appends,
  `del` filters the key out, and dict unpacking with override is
  `dictInsert`.
* Mutation is explicit state passing: `revise` returns the revised
  domains, `_backtrack` returns both its result and the final state of
  the assignment dict it mutated.
* While loops / unbounded recursion carry a fuel argument; the fuel
  chosen for `AC3` is proved sufficient below (`ac3Aux_isSome`).
-/

abbrev Assignment := List (Nat × Nat)

abbrev Doms := List (List Nat)

/-- Python `abs(a - b)` on integers, for natural-number operands. -/
def absDiff (a b : Nat) : Nat := max a b - min a b

/-- Python `k in assignment` (dict key membership). -/
def mem_assign (k : Nat) (a : Assignment) : Bool :=
  a.any (fun p => p.1 == k)

/-- The keys of the assignment dict, in insertion order. -/
def keysOf (a : Assignment) : List Nat := a.map Prod.fst

/-- Python `{**assignment, k: v}` and `assignment[k] = v`: override in
place when the key is present, else append. -/
def dictInsert (a : Assignment) (k v : Nat) : Assignment :=
  if mem_assign k a then a.map (fun p => if p.1 == k then (k, v) else p)
  else a ++ [(k, v)]

/-- Python `del assignment[k]`. -/
def dictErase (a : Assignment) (k : Nat) : Assignment :=
  a.filter (fun p => p.1 != k)

/-- Lines 33-41, `is_consistent`: the assignment of `value` to `var`
conflicts with no already-assigned pair (same row or same diagonal). -/
def is_consistent (var value : Nat) (assignment : Assignment) : Bool :=
  assignment.all (fun p => !(p.2 == value || absDiff p.2 value == absDiff p.1 var))

/-- The MRV key order used on line 49: `(len(domains[v]), -v)` compared
lexicographically, as a strict order. -/
def mrvLt (doms : Doms) (v w : Nat) : Prop :=
  (doms.getD v []).length < (doms.getD w []).length ∨
    ((doms.getD v []).length = (doms.getD w []).length ∧ w < v)

instance (doms : Doms) (v w : Nat) : Decidable (mrvLt doms v w) := by
  unfold mrvLt; infer_instance

/-- Lines 43-49, `select_unassigned_variable`: Python `min` over the
unassigned variables with key `(len(domains[var]), -var)`; `min` keeps
the first element whose key is strictly minimal.  (Python raises on an
empty sequence; the model returns 0 there, a case the solver never
reaches.) -/
def select_unassigned_variable (doms : Doms) (assignment : Assignment) : Nat :=
  let unassigned_vars := (List.range doms.length).filter (fun v => !(mem_assign v assignment))
  match unassigned_vars with
  | [] => 0
  | u :: us => us.foldl (fun best v => if mrvLt doms v best then v else best) u

/-- Lines 55-63, the `lcv_score` closure: count, over every other
unassigned variable and every value in its domain, the combinations
consistent with the tentative assignment `{**assignment, var: value}`. -/
def lcv_score (doms : Doms) (var : Nat) (assignment : Assignment) (value : Nat) : Nat :=
  (List.range doms.length).foldl
    (fun count neighbor_var =>
      if neighbor_var != var && !(mem_assign neighbor_var assignment) then
        count + (doms.getD neighbor_var []).countP
          (fun neighbor_val =>
            is_consistent neighbor_var neighbor_val (dictInsert assignment var value))
      else count) 0

/-- Stable insertion (by first component, descending) used to model
Python stable `sorted(..., key=..., reverse=True)` on decorated pairs
`(key, value)`: an element goes before the first element whose key is
less than or equal to its own, so equal keys keep their original order. -/
def insertDescBy (x : Nat × Nat) : List (Nat × Nat) → List (Nat × Nat)
  | [] => [x]
  | y :: ys => if y.1 ≤ x.1 then x :: y :: ys else y :: insertDescBy x ys

/-- Stable descending sort by first component. -/
def sortDescBy : List (Nat × Nat) → List (Nat × Nat)
  | [] => []
  | x :: xs => insertDescBy x (sortDescBy xs)

/-- Lines 51-65, `order_domain_values`: `sorted(domains[var],
key=lcv_score, reverse=True)`.  Python computes the key once per element
(decoration) and sorts stably in descending key order. -/
def order_domain_values (doms : Doms) (var : Nat) (assignment : Assignment) : List Nat :=
  (sortDescBy ((doms.getD var []).map (fun value => (lcv_score doms var assignment value, value)))).map
    Prod.snd

/-- Lines 67-78, `revise`: iterate over a copy of `domains[var_i]`,
removing every `val_i` for which the (shadowed-binder) condition
`all(not any(val_i == val_j for val_j in domains[var_j]) for val_j in
domains[var_j])` holds; report whether anything was removed. -/
def revise (doms : Doms) (var_i var_j : Nat) : Bool × Doms :=
  let d_i := doms.getD var_i []
  let d_j := doms.getD var_j []
  let removeVal := fun val_i => d_j.all (fun val_j => !(d_j.any (fun val_j => val_i == val_j)))
  (d_i.any removeVal, doms.set var_i (d_i.filter (fun val_i => !(removeVal val_i))))

/-- Lines 94-97 of `AC3`: the batch of pairs `(var_k, var_i)` appended to
the queue after a successful revision, one per constraint whose first
component `var_k` differs from `var_j`, in constraint order. -/
def requeue (constraints : List (Nat × Nat)) (var_j var_i : Nat) : List (Nat × Nat) :=
  (constraints.filter (fun p => p.1 != var_j)).map (fun p => (p.1, var_i))

/-- Lines 80-98, the `AC3` worklist loop, with explicit fuel.  `none`
means the fuel ran out, which `ac3Aux_isSome` below proves never happens
for the fuel `AC3` supplies. -/
def ac3Aux (constraints : List (Nat × Nat)) :
    Nat → List (Nat × Nat) → Doms → Option (Bool × Doms)
  | _, [], doms => some (true, doms)
  | 0, _ :: _, _ => none
  | fuel + 1, (var_i, var_j) :: queue, doms =>
    match revise doms var_i var_j with
    | (true, doms') =>
      if (doms'.getD var_i []).isEmpty then some (false, doms')
      else ac3Aux constraints fuel (queue ++ requeue constraints var_j var_i) doms'
    | (false, doms') => ac3Aux constraints fuel queue doms'

/-- Total number of values across all domains. -/
def totalSize (doms : Doms) : Nat := (doms.map List.length).sum

/-- Fuel sufficient for the AC-3 worklist loop: every iteration either
shortens the queue or strictly shrinks the total domain size while
adding at most `constraints.length` pairs. -/
def ac3fuel (constraints : List (Nat × Nat)) (doms : Doms) : Nat :=
  constraints.length + totalSize doms * (constraints.length + 1) + 1

/-- Lines 80-98, `AC3`: run the worklist loop on a queue holding all
constraints; returns the boolean result together with the final domains. -/
def AC3 (constraints : List (Nat × Nat)) (doms : Doms) : Bool × Doms :=
  (ac3Aux constraints (ac3fuel constraints doms) constraints doms).getD (true, doms)

/-- Lines 117-128, the `for value in ordered_values` loop of
`_backtrack`, parameterised by the recursive call `recur`.  Both the
optional result and the final state of the mutated assignment dict are
returned. -/
def backtrackLoop (recur : Assignment → Option Assignment × Assignment) (var : Nat) :
    List Nat → Assignment → Option Assignment × Assignment
  | [], assignment => (none, assignment)
  | value :: rest, assignment =>
    if is_consistent var value assignment then
      match recur (dictInsert assignment var value) with
      | (some result, st) => (some result, st)
      | (none, st) => backtrackLoop recur var rest (dictErase st var)
    else backtrackLoop recur var rest assignment

/-- Lines 106-131, `_backtrack`, with explicit fuel for the recursion
depth (one unit per recursive call; `backtracking_search` supplies
`doms.length + 1`, enough since each call grows the assignment). -/
def backtrack (doms : Doms) : Nat → Assignment → Option Assignment × Assignment
  | 0, assignment => (none, assignment)
  | fuel + 1, assignment =>
    if assignment.length = doms.length then (some assignment, assignment)
    else
      let var := select_unassigned_variable doms assignment
      backtrackLoop (backtrack doms fuel) var (order_domain_values doms var assignment) assignment

/-- Lines 100-104, `backtracking_search`: run `_backtrack` on the empty
assignment and return its result. -/
def backtracking_search (doms : Doms) : Option Assignment :=
  (backtrack doms (doms.length + 1) []).1

/-- Line 28 of `read_input`: `{i: list(range(n)) for i in range(n)}`. -/
def initDomains (n : Nat) : Doms :=
  (List.range n).map (fun _ => List.range n)

/-- Line 30 of `read_input`: `[(i, j) for i in range(n) for j in range(n) if i != j]`. -/
def constraintsOf (n : Nat) : List (Nat × Nat) :=
  (List.range n).flatMap (fun i => ((List.range n).filter (fun j => j != i)).map (fun j => (i, j)))

/-- Lines 140-151 of `solve_nqueens`, after `read_input`: run AC-3 on
the current state; on success run backtracking search on the filtered
domains, on failure report no solution (`none`) without searching. -/
def runAfterInit (constraints : List (Nat × Nat)) (doms : Doms) : Option Assignment :=
  match AC3 constraints doms with
  | (true, doms') => backtracking_search doms'
  | (false, _) => none

/-- Lines 133-151, `solve_nqueens` for board size `n` (the engine part:
the file contents only determine `n`): initialise domains and
constraints as `read_input` does, then filter and search. -/
def solve_nqueens (n : Nat) : Option Assignment :=
  runAfterInit (constraintsOf n) (initDomains n)

/-- The non-attack relation between two (column, row) pairs: distinct
rows and distinct diagonals. -/
def OkPair (p q : Nat × Nat) : Prop :=
  p.2 ≠ q.2 ∧ absDiff p.2 q.2 ≠ absDiff p.1 q.1

instance (p q : Nat × Nat) : Decidable (OkPair p q) := by
  unfold OkPair; infer_instance

/-- Pairwise non-attack consistency of an assignment. -/
def ConsistentA (a : Assignment) : Prop := a.Pairwise OkPair

/-- Well-formedness of the assignment dict for `doms.length` variables:
keys are distinct and in range. -/
def GoodA (doms : Doms) (a : Assignment) : Prop :=
  (keysOf a).Nodup ∧ ∀ p ∈ a, p.1 < doms.length

instance (doms : Doms) (a : Assignment) : Decidable (GoodA doms a) := by
  unfold GoodA; infer_instance

/-- A complete valid placement for board size `n`: one row per column
(all `n` columns, distinct), all in range, pairwise non-attacking. -/
def ValidPlacement (n : Nat) (r : Assignment) : Prop :=
  r.length = n ∧ (keysOf r).Nodup ∧ (∀ p ∈ r, p.1 < n) ∧
    ∀ p ∈ r, ∀ q ∈ r, p.1 ≠ q.1 → p.2 ≠ q.2 ∧ absDiff p.2 q.2 ≠ absDiff p.1 q.1

instance (n : Nat) (r : Assignment) : Decidable (ValidPlacement n r) := by
  unfold ValidPlacement; infer_instance

/-! ### Basic facts about the assignment dictionary -/

theorem absDiff_comm (a b : Nat) : absDiff a b = absDiff b a := by
  unfold absDiff; rw [Nat.max_comm, Nat.min_comm]

theorem mem_assign_iff (k : Nat) (a : Assignment) :
    mem_assign k a = true ↔ k ∈ keysOf a := by
  simp [mem_assign, keysOf, List.any_eq_true, List.mem_map]

theorem keysOf_append (a : Assignment) (k v : Nat) :
    keysOf (a ++ [(k, v)]) = keysOf a ++ [k] := by
  simp [keysOf]

theorem dictInsert_eq_append {k : Nat} {a : Assignment} (h : k ∉ keysOf a) (v : Nat) :
    dictInsert a k v = a ++ [(k, v)] := by
  have hm : mem_assign k a = false := by
    cases hma : mem_assign k a
    · rfl
    · exact absurd ((mem_assign_iff k a).mp hma) h
  simp [dictInsert, hm]

theorem dictErase_append {k : Nat} {a : Assignment} (h : k ∉ keysOf a) (v : Nat) :
    dictErase (a ++ [(k, v)]) k = a := by
  unfold dictErase
  rw [List.filter_append]
  have h1 : List.filter (fun p => p.1 != k) a = a := by
    rw [List.filter_eq_self]
    intro p hp
    simp only [bne_iff_ne, ne_eq]
    intro hpk
    exact h (by simpa [keysOf, hpk] using List.mem_map_of_mem Prod.fst hp)
  have h2 : List.filter (fun p : Nat × Nat => p.1 != k) [(k, v)] = [] := by
    simp
  rw [h1, h2, List.append_nil]

theorem is_consistent_iff (var v : Nat) (a : Assignment) :
    is_consistent var v a = true ↔
      ∀ p ∈ a, p.2 ≠ v ∧ absDiff p.2 v ≠ absDiff p.1 var := by
  simp [is_consistent, List.all_eq_true, not_or]

/-! ### The stable descending sort used by `order_domain_values` -/

theorem insertDescBy_perm (x : Nat × Nat) (l : List (Nat × Nat)) :
    (insertDescBy x l).Perm (x :: l) := by
  induction l with
  | nil => simp [insertDescBy]
  | cons y ys ih =>
    unfold insertDescBy
    by_cases h : y.1 ≤ x.1
    · simp [h]
    · simp only [h, if_false]
      exact List.Perm.trans (ih.cons y) (List.Perm.swap x y ys)

theorem sortDescBy_perm (l : List (Nat × Nat)) : (sortDescBy l).Perm l := by
  induction l with
  | nil => simp [sortDescBy]
  | cons x xs ih =>
    unfold sortDescBy
    exact List.Perm.trans (insertDescBy_perm x (sortDescBy xs)) (ih.cons x)

theorem insertDescBy_pairwise (x : Nat × Nat) {l : List (Nat × Nat)}
    (h : l.Pairwise (fun p q => q.1 ≤ p.1)) :
    (insertDescBy x l).Pairwise (fun p q => q.1 ≤ p.1) := by
  induction l with
  | nil => simp [insertDescBy]
  | cons y ys ih =>
    rw [List.pairwise_cons] at h
    obtain ⟨h1, h2⟩ := h
    unfold insertDescBy
    by_cases hxy : y.1 ≤ x.1
    · simp only [hxy, if_true]
      refine List.Pairwise.cons ?_ (List.Pairwise.cons h1 h2)
      intro z hz
      rcases List.mem_cons.mp hz with rfl | hz
      · exact hxy
      · exact Nat.le_trans (h1 z hz) hxy
    · simp only [hxy, if_false]
      refine List.Pairwise.cons ?_ (ih h2)
      intro z hz
      rcases List.mem_cons.mp ((insertDescBy_perm x ys).mem_iff.mp hz) with rfl | hz2
      · exact Nat.le_of_lt (Nat.lt_of_not_le hxy)
      · exact h1 z hz2

theorem sortDescBy_pairwise (l : List (Nat × Nat)) :
    (sortDescBy l).Pairwise (fun p q => q.1 ≤ p.1) := by
  induction l with
  | nil => simp [sortDescBy]
  | cons x xs ih =>
    unfold sortDescBy
    exact insertDescBy_pairwise x ih

theorem order_domain_values_perm (doms : Doms) (var : Nat) (a : Assignment) :
    (order_domain_values doms var a).Perm (doms.getD var []) := by
  unfold order_domain_values
  have h1 := (sortDescBy_perm
    ((doms.getD var []).map (fun value => (lcv_score doms var a value, value)))).map Prod.snd
  refine h1.trans ?_
  rw [List.map_map,
    show (Prod.snd ∘ fun value : Nat => (lcv_score doms var a value, value)) = id from rfl,
    List.map_id]

theorem order_domain_values_sorted (doms : Doms) (var : Nat) (a : Assignment) :
    (order_domain_values doms var a).Pairwise
      (fun x y => lcv_score doms var a y ≤ lcv_score doms var a x) := by
  unfold order_domain_values
  rw [List.pairwise_map]
  have hmem : ∀ p ∈ sortDescBy
      ((doms.getD var []).map (fun value => (lcv_score doms var a value, value))),
      p.1 = lcv_score doms var a p.2 := by
    intro p hp
    have := (sortDescBy_perm _).mem_iff.mp hp
    rcases List.mem_map.mp this with ⟨v, _, rfl⟩
    rfl
  refine List.Pairwise.imp_of_mem ?_ (sortDescBy_pairwise _)
  intro p q hp hq h
  rw [← hmem p hp, ← hmem q hq]
  exact h

/-! ### MRV selection -/

theorem mrvLt_irrefl (doms : Doms) (v : Nat) : ¬ mrvLt doms v v := by
  unfold mrvLt
  rintro (h | ⟨_, h⟩) <;> exact Nat.lt_irrefl _ h

theorem mrvLt_trans {doms : Doms} {u v w : Nat}
    (h1 : mrvLt doms u v) (h2 : mrvLt doms v w) : mrvLt doms u w := by
  unfold mrvLt at *
  rcases h1 with h1 | ⟨h1, h1'⟩ <;> rcases h2 with h2 | ⟨h2, h2'⟩
  · exact Or.inl (Nat.lt_trans h1 h2)
  · exact Or.inl (h2 ▸ h1)
  · exact Or.inl (h1 ▸ h2)
  · exact Or.inr ⟨h1.trans h2, Nat.lt_trans h2' h1'⟩

theorem mrvLt_total (doms : Doms) (v w : Nat) :
    mrvLt doms v w ∨ v = w ∨ mrvLt doms w v := by
  unfold mrvLt
  rcases Nat.lt_trichotomy (doms.getD v []).length (doms.getD w []).length with h | h | h
  · exact Or.inl (Or.inl h)
  · rcases Nat.lt_trichotomy v w with hv | hv | hv
    · exact Or.inr (Or.inr (Or.inr ⟨h.symm, hv⟩))
    · exact Or.inr (Or.inl hv)
    · exact Or.inl (Or.inr ⟨h, hv⟩)
  · exact Or.inr (Or.inr (Or.inl h))

theorem foldl_mrv_mem (doms : Doms) (us : List Nat) :
    ∀ u : Nat, us.foldl (fun best v => if mrvLt doms v best then v else best) u ∈ u :: us := by
  induction us with
  | nil => intro u; exact List.mem_singleton.mpr rfl
  | cons v vs ih =>
    intro u
    simp only [List.foldl_cons]
    have hif : (if mrvLt doms v u then v else u) ∈ u :: v :: vs := by
      by_cases hvu : mrvLt doms v u <;> simp [hvu]
    rcases List.mem_cons.mp (ih (if mrvLt doms v u then v else u)) with h | h
    · rw [h]; exact hif
    · exact List.mem_cons_of_mem _ (List.mem_cons_of_mem _ h)

theorem foldl_mrv_min (doms : Doms) (us : List Nat) :
    ∀ u : Nat, ∀ x ∈ u :: us,
      ¬ mrvLt doms x (us.foldl (fun best v => if mrvLt doms v best then v else best) u) := by
  induction us with
  | nil =>
    intro u x hx
    rw [List.mem_singleton.mp hx]
    exact mrvLt_irrefl doms u
  | cons v vs ih =>
    intro u x hx
    simp only [List.foldl_cons]
    by_cases hvu : mrvLt doms v u
    · simp only [hvu, if_true]
      rcases List.mem_cons.mp hx with rfl | hx2
      · intro hlt
        exact ih v v (List.mem_cons_self _ _) (mrvLt_trans hvu hlt)
      · exact ih v x hx2
    · simp only [hvu, if_false]
      rcases List.mem_cons.mp hx with rfl | hx2
      · exact ih x x (List.mem_cons_self _ _)
      · rcases List.mem_cons.mp hx2 with rfl | hx3
        · intro hlt
          rcases mrvLt_total doms x u with h | h | h
          · exact hvu h
          · exact ih u u (List.mem_cons_self _ _) (h ▸ hlt)
          · exact ih u u (List.mem_cons_self _ _) (mrvLt_trans h hlt)
        · exact ih u x (List.mem_cons_of_mem _ hx3)

theorem select_mem_and_min (doms : Doms) (a : Assignment)
    (h : (List.range doms.length).filter (fun v => !(mem_assign v a)) ≠ []) :
    select_unassigned_variable doms a ∈
        (List.range doms.length).filter (fun v => !(mem_assign v a)) ∧
      ∀ x ∈ (List.range doms.length).filter (fun v => !(mem_assign v a)),
        ¬ mrvLt doms x (select_unassigned_variable doms a) := by
  cases hL : (List.range doms.length).filter (fun v => !(mem_assign v a)) with
  | nil => exact absurd hL h
  | cons u us =>
    have hsel : select_unassigned_variable doms a =
        us.foldl (fun best v => if mrvLt doms v best then v else best) u := by
      simp only [select_unassigned_variable, hL]
    refine ⟨?_, ?_⟩ <;> rw [hsel]
    · exact foldl_mrv_mem doms us u
    · exact foldl_mrv_min doms us u

theorem unassigned_ne_nil {doms : Doms} {a : Assignment}
    (hg : GoodA doms a) (hlen : a.length ≠ doms.length) :
    (List.range doms.length).filter (fun v => !(mem_assign v a)) ≠ [] := by
  intro hnil
  have hsub : List.range doms.length ⊆ keysOf a := by
    intro v hv
    have := List.filter_eq_nil_iff.mp hnil v hv
    have hmem : mem_assign v a = true := by
      cases hma : mem_assign v a
      · exact absurd (by simp [hma]) this
      · rfl
    exact (mem_assign_iff v a).mp hmem
  have h1 : doms.length ≤ a.length := by
    have := (List.nodup_range doms.length).subperm hsub
    simpa [keysOf] using this.length_le
  have h2 : a.length ≤ doms.length := by
    have hsub2 : keysOf a ⊆ List.range doms.length := by
      intro k hk
      rcases List.mem_map.mp hk with ⟨p, hp, rfl⟩
      exact List.mem_range.mpr (hg.2 p hp)
    have := hg.1.subperm hsub2
    simpa [keysOf] using this.length_le
  exact hlen (Nat.le_antisymm h2 h1)

theorem select_lt_and_unassigned {doms : Doms} {a : Assignment}
    (hg : GoodA doms a) (hlen : a.length ≠ doms.length) :
    select_unassigned_variable doms a < doms.length ∧
      select_unassigned_variable doms a ∉ keysOf a := by
  have h := (select_mem_and_min doms a (unassigned_ne_nil hg hlen)).1
  rcases List.mem_filter.mp h with ⟨h1, h2⟩
  refine ⟨List.mem_range.mp h1, fun hk => ?_⟩
  rw [Bool.not_eq_eq_eq_not, Bool.not_true] at h2
  exact absurd ((mem_assign_iff _ a).mpr hk) (by simp [h2])

/-! ### Facts about `revise` -/

theorem set_getD_self : ∀ (l : Doms) (i : Nat), l.set i (l.getD i []) = l := by
  intro l
  induction l with
  | nil => intro i; rfl
  | cons x xs ih =>
    intro i
    cases i with
    | zero => rfl
    | succ i => simpa [List.set_cons_succ] using ih i

theorem revise_fst (doms : Doms) (var_i var_j : Nat) :
    (revise doms var_i var_j).1 =
      (doms.getD var_i []).any (fun val_i =>
        (doms.getD var_j []).all (fun val_j =>
          !((doms.getD var_j []).any (fun val_j => val_i == val_j)))) := rfl

theorem revise_snd (doms : Doms) (var_i var_j : Nat) :
    (revise doms var_i var_j).2 =
      doms.set var_i ((doms.getD var_i []).filter (fun val_i =>
        !((doms.getD var_j []).all (fun val_j =>
          !((doms.getD var_j []).any (fun val_j => val_i == val_j)))))) := rfl

theorem revise_false {doms : Doms} {var_i var_j : Nat}
    (h : (revise doms var_i var_j).1 = false) :
    (revise doms var_i var_j).2 = doms := by
  rw [revise_snd]
  rw [revise_fst] at h
  have hall : ∀ x ∈ doms.getD var_i [],
      (!((doms.getD var_j []).all (fun val_j =>
        !((doms.getD var_j []).any (fun val_j => x == val_j))))) = true := by
    intro x hx
    have := List.any_eq_false.mp h x hx
    simp only [Bool.not_eq_true] at this
    rw [this]; rfl
  rw [List.filter_eq_self.mpr hall, set_getD_self]

theorem totalSize_set (x : List Nat) :
    ∀ (doms : Doms) (i : Nat), i < doms.length →
      totalSize (doms.set i x) + (doms.getD i []).length = totalSize doms + x.length := by
  intro doms
  induction doms with
  | nil => intro i h; exact absurd h (by simp)
  | cons d ds ih =>
    intro i h
    cases i with
    | zero =>
      simp only [List.set_cons_zero, totalSize, List.map_cons, List.sum_cons, List.getD_cons_zero]
      omega
    | succ i =>
      have hi : i < ds.length := by simpa using h
      have := ih i hi
      simp only [List.set_cons_succ, totalSize, List.map_cons, List.sum_cons,
        List.getD_cons_succ] at *
      omega

theorem revise_true_size {doms : Doms} {var_i var_j : Nat}
    (h : (revise doms var_i var_j).1 = true) :
    totalSize (revise doms var_i var_j).2 < totalSize doms := by
  rw [revise_fst] at h
  rcases List.any_eq_true.mp h with ⟨x, hx, hcond⟩
  have hlt : var_i < doms.length := by
    by_contra hge
    have : doms.getD var_i [] = [] := by
      rw [List.getD_eq_getElem?_getD, List.getElem?_eq_none (by omega)]
      rfl
    rw [this] at hx
    exact absurd hx (List.not_mem_nil x)
  rw [revise_snd]
  have hfl : ((doms.getD var_i []).filter (fun val_i =>
      !((doms.getD var_j []).all (fun val_j =>
        !((doms.getD var_j []).any (fun val_j => val_i == val_j)))))).length <
      (doms.getD var_i []).length := by
    rw [List.length_filter_lt_length_iff_exists]
    exact ⟨x, hx, by simp only [hcond]; decide⟩
  have := totalSize_set ((doms.getD var_i []).filter (fun val_i =>
      !((doms.getD var_j []).all (fun val_j =>
        !((doms.getD var_j []).any (fun val_j => val_i == val_j)))))) doms var_i hlt
  omega

theorem revise_length (doms : Doms) (var_i var_j : Nat) :
    ((revise doms var_i var_j).2).length = doms.length := by
  rw [revise_snd, List.length_set]

theorem revise_getD_sublist (doms : Doms) (var_i var_j k : Nat) :
    ((revise doms var_i var_j).2.getD k []).Sublist (doms.getD k []) := by
  rw [revise_snd]
  by_cases hk : var_i = k
  · subst hk
    by_cases hlt : var_i < doms.length
    · rw [List.getD_eq_getElem?_getD, List.getElem?_set_self (by simpa using hlt)]
      exact List.filter_sublist _
    · rw [List.set_eq_of_length_le (by omega)]
  · rw [List.getD_eq_getElem?_getD, List.getElem?_set_ne hk, ← List.getD_eq_getElem?_getD]


theorem revise_false' {doms : Doms} {var_i var_j : Nat} {dd : Doms}
    (h : revise doms var_i var_j = (false, dd)) : dd = doms := by
  have h1 : (revise doms var_i var_j).1 = false := by rw [h]
  have := revise_false h1
  rw [h] at this
  exact this

theorem revise_true_size' {doms : Doms} {var_i var_j : Nat} {dd : Doms}
    (h : revise doms var_i var_j = (true, dd)) : totalSize dd < totalSize doms := by
  have h1 : (revise doms var_i var_j).1 = true := by rw [h]
  have := revise_true_size h1
  rw [h] at this
  exact this

theorem revise_doms' {doms : Doms} {var_i var_j : Nat} {b : Bool} {dd : Doms}
    (h : revise doms var_i var_j = (b, dd)) :
    dd.length = doms.length ∧ ∀ k, (dd.getD k []).Sublist (doms.getD k []) := by
  constructor
  · have := revise_length doms var_i var_j; rw [h] at this; exact this
  · intro k
    have := revise_getD_sublist doms var_i var_j k; rw [h] at this; exact this

/-! ### Facts about the AC-3 worklist loop -/

theorem ac3Aux_nil (C : List (Nat × Nat)) (fuel : Nat) (doms : Doms) :
    ac3Aux C fuel [] doms = some (true, doms) := by
  cases fuel <;> rfl

theorem ac3Aux_cons (C : List (Nat × Nat)) (fuel var_i var_j : Nat)
    (q : List (Nat × Nat)) (doms : Doms) :
    ac3Aux C (fuel + 1) ((var_i, var_j) :: q) doms =
      match revise doms var_i var_j with
      | (true, doms') =>
        if (doms'.getD var_i []).isEmpty then some (false, doms')
        else ac3Aux C fuel (q ++ requeue C var_j var_i) doms'
      | (false, doms') => ac3Aux C fuel q doms' := rfl

theorem ac3Aux_cons_true (C : List (Nat × Nat)) {fuel var_i var_j : Nat}
    {q : List (Nat × Nat)} {doms dd : Doms}
    (hrev : revise doms var_i var_j = (true, dd)) :
    ac3Aux C (fuel + 1) ((var_i, var_j) :: q) doms =
      if (dd.getD var_i []).isEmpty then some (false, dd)
      else ac3Aux C fuel (q ++ requeue C var_j var_i) dd := by
  rw [ac3Aux_cons, hrev]

theorem ac3Aux_cons_false (C : List (Nat × Nat)) {fuel var_i var_j : Nat}
    {q : List (Nat × Nat)} {doms dd : Doms}
    (hrev : revise doms var_i var_j = (false, dd)) :
    ac3Aux C (fuel + 1) ((var_i, var_j) :: q) doms = ac3Aux C fuel q dd := by
  rw [ac3Aux_cons, hrev]

theorem requeue_length_le (C : List (Nat × Nat)) (var_j var_i : Nat) :
    (requeue C var_j var_i).length ≤ C.length := by
  unfold requeue
  rw [List.length_map]
  exact List.length_filter_le _ _

theorem ac3Aux_isSome (C : List (Nat × Nat)) :
    ∀ fuel (q : List (Nat × Nat)) (doms : Doms),
      q.length + totalSize doms * (C.length + 1) < fuel →
      (ac3Aux C fuel q doms).isSome = true := by
  intro fuel
  induction fuel with
  | zero => intro q doms h; omega
  | succ fuel ih =>
    intro q doms h
    cases q with
    | nil => rw [ac3Aux_nil]; rfl
    | cons p rest =>
      obtain ⟨var_i, var_j⟩ := p
      rcases hrev : revise doms var_i var_j with ⟨b, dd⟩
      cases b with
      | false =>
        rw [ac3Aux_cons_false C hrev]
        rw [revise_false' hrev]
        exact ih rest doms (by simp only [List.length_cons] at h; omega)
      | true =>
        rw [ac3Aux_cons_true C hrev]
        by_cases he : (dd.getD var_i []).isEmpty
        · rw [if_pos he]; rfl
        · rw [if_neg he]
          have hsz : totalSize dd < totalSize doms := revise_true_size' hrev
          apply ih
          have hrq := requeue_length_le C var_j var_i
          have hmul : totalSize dd * (C.length + 1) + (C.length + 1) ≤
              totalSize doms * (C.length + 1) := by
            calc totalSize dd * (C.length + 1) + (C.length + 1)
                = (totalSize dd + 1) * (C.length + 1) := by ring
              _ ≤ totalSize doms * (C.length + 1) := Nat.mul_le_mul_right _ hsz
          simp only [List.length_append, List.length_cons] at h ⊢
          omega

theorem ac3Aux_doms (C : List (Nat × Nat)) :
    ∀ fuel (q : List (Nat × Nat)) (doms : Doms) (b : Bool) (doms' : Doms),
      ac3Aux C fuel q doms = some (b, doms') →
      doms'.length = doms.length ∧ ∀ k, (doms'.getD k []).Sublist (doms.getD k []) := by
  intro fuel
  induction fuel with
  | zero =>
    intro q doms b doms' h
    cases q with
    | nil =>
      rw [ac3Aux_nil] at h
      have hd : doms' = doms := (congrArg Prod.snd (Option.some.inj h)).symm
      subst hd
      exact ⟨rfl, fun k => List.Sublist.refl _⟩
    | cons p rest =>
      obtain ⟨x, y⟩ := p
      rw [show ac3Aux C 0 ((x, y) :: rest) doms = (none : Option (Bool × Doms)) from rfl] at h
      exact Option.noConfusion h
  | succ fuel ih =>
    intro q doms b doms' h
    cases q with
    | nil =>
      rw [ac3Aux_nil] at h
      have hd : doms' = doms := (congrArg Prod.snd (Option.some.inj h)).symm
      subst hd
      exact ⟨rfl, fun k => List.Sublist.refl _⟩
    | cons p rest =>
      obtain ⟨var_i, var_j⟩ := p
      rcases hrev : revise doms var_i var_j with ⟨bb, dd⟩
      have hdd := revise_doms' hrev
      cases bb with
      | false =>
        rw [ac3Aux_cons_false C hrev] at h
        have := ih rest dd b doms' h
        exact ⟨this.1.trans hdd.1, fun k => (this.2 k).trans (hdd.2 k)⟩
      | true =>
        rw [ac3Aux_cons_true C hrev] at h
        by_cases he : (dd.getD var_i []).isEmpty
        · rw [if_pos he] at h
          have hd : doms' = dd := (congrArg Prod.snd (Option.some.inj h)).symm
          subst hd
          exact hdd
        · rw [if_neg he] at h
          have := ih _ dd b doms' h
          exact ⟨this.1.trans hdd.1, fun k => (this.2 k).trans (hdd.2 k)⟩

theorem AC3_doms (C : List (Nat × Nat)) (doms : Doms) :
    (AC3 C doms).2.length = doms.length ∧
      ∀ k, ((AC3 C doms).2.getD k []).Sublist (doms.getD k []) := by
  unfold AC3
  rcases h : ac3Aux C (ac3fuel C doms) C doms with _ | ⟨b, doms'⟩
  · exact ⟨rfl, fun k => List.Sublist.refl _⟩
  · simpa using ac3Aux_doms C _ C doms b doms' h

theorem ac3Aux_no_revision (C : List (Nat × Nat)) :
    ∀ fuel (q : List (Nat × Nat)) (doms : Doms),
      (∀ p ∈ q, (revise doms p.1 p.2).1 = false) →
      q.length < fuel →
      ac3Aux C fuel q doms = some (true, doms) := by
  intro fuel
  induction fuel with
  | zero => intro q doms _ h; omega
  | succ fuel ih =>
    intro q doms hq h
    cases q with
    | nil => exact ac3Aux_nil C _ doms
    | cons p rest =>
      obtain ⟨var_i, var_j⟩ := p
      rcases hrev : revise doms var_i var_j with ⟨bb, dd⟩
      have hb : bb = false := by
        have := hq (var_i, var_j) (List.mem_cons_self _ _)
        rw [hrev] at this; exact this
      subst hb
      rw [ac3Aux_cons_false C hrev, revise_false' hrev]
      exact ih rest doms (fun p hp => hq p (List.mem_cons_of_mem _ hp))
        (by simp only [List.length_cons] at h; omega)

/-! ### The initial state built by `read_input` -/

theorem initDomains_getD (n k : Nat) :
    (initDomains n).getD k [] = if k < n then List.range n else [] := by
  by_cases h : k < n
  · rw [if_pos h, List.getD_eq_getElem?_getD]
    unfold initDomains
    rw [List.getElem?_map, List.getElem?_range (by simpa using h)]
    rfl
  · rw [if_neg h, List.getD_eq_getElem?_getD, List.getElem?_eq_none]
    · rfl
    · unfold initDomains
      simp only [List.length_map, List.length_range]
      omega

theorem initDomains_length (n : Nat) : (initDomains n).length = n := by
  unfold initDomains
  rw [List.length_map, List.length_range]

theorem revise_init (n var_i var_j : Nat) (hj : var_j < n) :
    (revise (initDomains n) var_i var_j).1 = false := by
  rw [revise_fst, List.any_eq_false]
  intro x hx hall
  rw [initDomains_getD] at hx
  by_cases hi : var_i < n
  · rw [if_pos hi] at hx
    rw [initDomains_getD, if_pos hj] at hall
    have hxany : (List.range n).any (fun val_j => x == val_j) = true :=
      List.any_eq_true.mpr ⟨x, hx, by simp⟩
    have h2 := List.all_eq_true.mp hall x hx
    rw [hxany] at h2
    exact absurd h2 (by simp)
  · rw [if_neg hi] at hx
    exact absurd hx (List.not_mem_nil x)

theorem mem_constraintsOf (n i j : Nat) :
    (i, j) ∈ constraintsOf n ↔ i < n ∧ j < n ∧ j ≠ i := by
  unfold constraintsOf
  simp only [List.mem_flatMap, List.mem_map, List.mem_filter, List.mem_range,
    Prod.mk.injEq, bne_iff_ne, ne_eq]
  constructor
  · rintro ⟨a, ha, b, ⟨⟨hb, hba⟩, rfl, rfl⟩⟩
    exact ⟨ha, hb, hba⟩
  · rintro ⟨hi, hj, hji⟩
    exact ⟨i, hi, j, ⟨hj, hji⟩, rfl, rfl⟩

theorem AC3_init (n : Nat) :
    AC3 (constraintsOf n) (initDomains n) = (true, initDomains n) := by
  have hall : ∀ p ∈ constraintsOf n, (revise (initDomains n) p.1 p.2).1 = false := by
    intro p hp
    obtain ⟨i, j⟩ := p
    exact revise_init n i j ((mem_constraintsOf n i j).mp hp).2.1
  have hrun := ac3Aux_no_revision (constraintsOf n)
    (ac3fuel (constraintsOf n) (initDomains n)) (constraintsOf n) (initDomains n)
    hall (by unfold ac3fuel; omega)
  unfold AC3
  rw [hrun]
  rfl

/-! ### Invariants of the backtracking search -/

theorem OkPair_symm {p q : Nat × Nat} (h : OkPair p q) : OkPair q p := by
  refine ⟨h.1.symm, ?_⟩
  rw [absDiff_comm q.2 p.2, absDiff_comm q.1 p.1]
  exact h.2

theorem GoodA_append {doms : Doms} {a : Assignment} {var v : Nat}
    (hg : GoodA doms a) (hvar : var < doms.length) (hvk : var ∉ keysOf a) :
    GoodA doms (a ++ [(var, v)]) := by
  constructor
  · rw [keysOf_append]
    rw [List.nodup_append]
    exact ⟨hg.1, List.nodup_singleton var, by
      intro x hx hx2
      rw [List.mem_singleton.mp hx2] at hx
      exact hvk hx⟩
  · intro p hp
    rcases List.mem_append.mp hp with hp | hp
    · exact hg.2 p hp
    · rw [List.mem_singleton.mp hp]
      exact hvar

theorem ConsistentA_append {a : Assignment} {var v : Nat}
    (hc : ConsistentA a) (hcons : is_consistent var v a = true) :
    ConsistentA (a ++ [(var, v)]) := by
  unfold ConsistentA at *
  rw [List.pairwise_append]
  refine ⟨hc, List.pairwise_singleton _ _, ?_⟩
  intro p hp q hq
  rw [List.mem_singleton.mp hq]
  have := (is_consistent_iff var v a).mp hcons p hp
  exact ⟨this.1, this.2⟩

theorem consistentA_forall {r : Assignment} (h : ConsistentA r) :
    ∀ p ∈ r, ∀ q ∈ r, p.1 ≠ q.1 →
      p.2 ≠ q.2 ∧ absDiff p.2 q.2 ≠ absDiff p.1 q.1 := by
  intro p hp q hq hne
  have hpq : p ≠ q := fun he => hne (congrArg Prod.fst he)
  exact List.Pairwise.forall (fun x y hxy => OkPair_symm hxy) h hp hq hpq

theorem backtrack_zero (doms : Doms) (a : Assignment) :
    backtrack doms 0 a = (none, a) := rfl

theorem backtrack_succ (doms : Doms) (fuel : Nat) (a : Assignment) :
    backtrack doms (fuel + 1) a =
      if a.length = doms.length then (some a, a)
      else
        backtrackLoop (backtrack doms fuel) (select_unassigned_variable doms a)
          (order_domain_values doms (select_unassigned_variable doms a) a) a := rfl

theorem backtrackLoop_nil (recur : Assignment → Option Assignment × Assignment)
    (var : Nat) (a : Assignment) : backtrackLoop recur var [] a = (none, a) := rfl

theorem backtrackLoop_cons (recur : Assignment → Option Assignment × Assignment)
    (var v : Nat) (rest : List Nat) (a : Assignment) :
    backtrackLoop recur var (v :: rest) a =
      if is_consistent var v a then
        match recur (dictInsert a var v) with
        | (some result, st) => (some result, st)
        | (none, st) => backtrackLoop recur var rest (dictErase st var)
      else backtrackLoop recur var rest a := rfl

theorem backtrackLoop_ok (doms : Doms) (recur : Assignment → Option Assignment × Assignment)
    (var : Nat) (hvar : var < doms.length)
    (hrec : ∀ a, GoodA doms a →
      ((recur a).1 = none → (recur a).2 = a) ∧
      (∀ r, (recur a).1 = some r →
        (recur a).2 = r ∧ (∃ t, r = a ++ t) ∧ GoodA doms r ∧
          r.length = doms.length ∧ (ConsistentA a → ConsistentA r))) :
    ∀ (vs : List Nat) (a : Assignment), GoodA doms a → var ∉ keysOf a →
      ((backtrackLoop recur var vs a).1 = none → (backtrackLoop recur var vs a).2 = a) ∧
      (∀ r, (backtrackLoop recur var vs a).1 = some r →
        (backtrackLoop recur var vs a).2 = r ∧ (∃ t, r = a ++ t) ∧ GoodA doms r ∧
          r.length = doms.length ∧ (ConsistentA a → ConsistentA r)) := by
  intro vs
  induction vs with
  | nil =>
    intro a hg hvk
    rw [backtrackLoop_nil]
    exact ⟨fun _ => rfl, fun r hr => Option.noConfusion hr⟩
  | cons v rest ih =>
    intro a hg hvk
    by_cases hc : is_consistent var v a
    · have ha1 : dictInsert a var v = a ++ [(var, v)] := dictInsert_eq_append hvk v
      have hg1 : GoodA doms (dictInsert a var v) := by
        rw [ha1]; exact GoodA_append hg hvar hvk
      rcases hr : recur (dictInsert a var v) with ⟨res, st⟩
      cases res with
      | some r =>
        have heq : backtrackLoop recur var (v :: rest) a = (some r, st) := by
          rw [backtrackLoop_cons, if_pos hc, hr]
        have h1 : (recur (dictInsert a var v)).1 = some r := by rw [hr]
        have := (hrec _ hg1).2 r h1
        rw [hr] at this
        obtain ⟨hst, ⟨t, ht⟩, hgr, hlen, hcr⟩ := this
        rw [heq]
        constructor
        · intro habs; exact Option.noConfusion habs
        · intro r' hr'
          have hrr : r' = r := Option.some.inj hr'.symm
          subst hrr
          refine ⟨hst, ⟨(var, v) :: t, by rw [ht, ha1, List.append_assoc]; rfl⟩, hgr, hlen, ?_⟩
          intro hca
          exact hcr (ha1 ▸ ConsistentA_append hca hc)
      | none =>
        have h1 : (recur (dictInsert a var v)).1 = none := by rw [hr]
        have hst : st = dictInsert a var v := by
          have := (hrec _ hg1).1 h1
          rw [hr] at this
          exact this
        have hback : dictErase st var = a := by
          rw [hst, ha1]
          exact dictErase_append hvk v
        have heq : backtrackLoop recur var (v :: rest) a = backtrackLoop recur var rest a := by
          rw [backtrackLoop_cons, if_pos hc, hr]
          show backtrackLoop recur var rest (dictErase st var) = _
          rw [hback]
        rw [heq]
        exact ih a hg hvk
    · have heq : backtrackLoop recur var (v :: rest) a = backtrackLoop recur var rest a := by
        rw [backtrackLoop_cons, if_neg hc]
      rw [heq]
      exact ih a hg hvk

theorem backtrack_ok (doms : Doms) :
    ∀ fuel (a : Assignment), GoodA doms a →
      ((backtrack doms fuel a).1 = none → (backtrack doms fuel a).2 = a) ∧
      (∀ r, (backtrack doms fuel a).1 = some r →
        (backtrack doms fuel a).2 = r ∧ (∃ t, r = a ++ t) ∧ GoodA doms r ∧
          r.length = doms.length ∧ (ConsistentA a → ConsistentA r)) := by
  intro fuel
  induction fuel with
  | zero =>
    intro a _
    rw [backtrack_zero]
    exact ⟨fun _ => rfl, fun r hr => Option.noConfusion hr⟩
  | succ fuel ih =>
    intro a hg
    rw [backtrack_succ]
    by_cases hl : a.length = doms.length
    · rw [if_pos hl]
      constructor
      · intro habs; exact Option.noConfusion habs
      · intro r hr
        have hra : r = a := Option.some.inj hr.symm
        subst hra
        exact ⟨rfl, ⟨[], by rw [List.append_nil]⟩, hg, hl, fun h => h⟩
    · rw [if_neg hl]
      have hsel := select_lt_and_unassigned hg hl
      exact backtrackLoop_ok doms (backtrack doms fuel)
        (select_unassigned_variable doms a) hsel.1 ih
        (order_domain_values doms (select_unassigned_variable doms a) a) a hg hsel.2

/-! ### The claims -/

/-- Claim C1.  The claim states that `revise` removes a value `v` from
Xi's domain if and only if no value `w` in Xj's domain is compatible
with `v` under the full non-attack predicate (`v ≠ w` and
`|v - w| ≠ |i - j|`).  The code instead tests bare membership of `v` in
Xj's domain (the inner generator shadows the outer binder), so on the
initial 2-queens domains no value in X1's domain is compatible with
`v = 0` at X0 — the claim demands removal — yet `revise` removes
nothing and reports no revision. -/
theorem c1_revise_ignores_nonattack_predicate :
    revise [[0, 1], [0, 1]] 0 1 = (false, [[0, 1], [0, 1]]) ∧
      is_consistent 0 0 [(1, 0)] = false ∧ is_consistent 0 0 [(1, 1)] = false := by
  refine ⟨by decide, by decide, by decide⟩

/-- Claim C2.  For every `n`, if the engine reports a solution, the
returned assignment is one row per column (all `n` columns, distinct
keys), and every two distinct columns have distinct rows on distinct
diagonals. -/
theorem c2_solution_is_valid_placement (n : Nat) (r : Assignment)
    (h : solve_nqueens n = some r) : ValidPlacement n r := by
  unfold solve_nqueens runAfterInit at h
  rcases hA : AC3 (constraintsOf n) (initDomains n) with ⟨b, d'⟩
  rw [hA] at h
  cases b with
  | false => exact Option.noConfusion h
  | true =>
    have hlen_d : d'.length = n := by
      have := (AC3_doms (constraintsOf n) (initDomains n)).1
      rw [hA] at this
      simpa [initDomains_length] using this
    have h' : (backtrack d' (d'.length + 1) []).1 = some r := h
    have hg0 : GoodA d' [] :=
      ⟨List.nodup_nil, fun p hp => absurd hp (List.not_mem_nil p)⟩
    obtain ⟨_, _, hgr, hlen, hcr⟩ := (backtrack_ok d' (d'.length + 1) [] hg0).2 r h'
    have hcons : ConsistentA r := hcr List.Pairwise.nil
    refine ⟨by rw [hlen, hlen_d], hgr.1, ?_, consistentA_forall hcons⟩
    intro p hp
    rw [← hlen_d]
    exact hgr.2 p hp

/-- Witness for C2 at `n = 1`. -/
theorem c2_witness :
    solve_nqueens 1 = some [(0, 0)] ∧ ValidPlacement 1 [(0, 0)] :=
  ⟨by decide, c2_solution_is_valid_placement 1 [(0, 0)] (by decide)⟩

/-- Claim C3.  If the `AC3` pass reports `false`, the search phase is
skipped and the engine reports no solution: `runAfterInit` (the body of
`solve_nqueens` after `read_input`) returns `none` without producing any
assignment. -/
theorem c3_ac3_false_skips_search (constraints : List (Nat × Nat)) (doms : Doms)
    (h : (AC3 constraints doms).1 = false) :
    runAfterInit constraints doms = none := by
  unfold runAfterInit
  rcases hA : AC3 constraints doms with ⟨b, d'⟩
  rw [hA] at h
  cases b with
  | false => rfl
  | true => exact Bool.noConfusion h

/-- Witness for C3: a domain state on which `AC3` reports `false`. -/
theorem c3_witness :
    (AC3 [(0, 1), (1, 0)] [[0, 1], []]).1 = false ∧
      runAfterInit [(0, 1), (1, 0)] [[0, 1], []] = none :=
  ⟨by decide, c3_ac3_false_skips_search [(0, 1), (1, 0)] [[0, 1], []] (by decide)⟩

/-- Claim C4.  The engine yields a valid non-attacking solution for
`n = 1, 4, 8` and reports no solution for `n = 2` and `n = 3`. -/
theorem c4_known_sizes :
    (solve_nqueens 1 = some [(0, 0)] ∧ ValidPlacement 1 [(0, 0)]) ∧
    (solve_nqueens 4 = some [(3, 1), (2, 3), (1, 0), (0, 2)] ∧
      ValidPlacement 4 [(3, 1), (2, 3), (1, 0), (0, 2)]) ∧
    (solve_nqueens 8 = some [(7, 0), (6, 5), (5, 7), (4, 2), (3, 6), (2, 3), (1, 1), (0, 4)] ∧
      ValidPlacement 8 [(7, 0), (6, 5), (5, 7), (4, 2), (3, 6), (2, 3), (1, 1), (0, 4)]) ∧
    solve_nqueens 2 = none ∧ solve_nqueens 3 = none := by
  refine ⟨⟨by decide, by decide⟩, ⟨by decide, by decide⟩, ⟨by decide, by decide⟩,
    by decide, by decide⟩

/-- Witness for C4: the reported non-solutions, extracted from the claim. -/
theorem c4_witness : solve_nqueens 2 = none ∧ solve_nqueens 3 = none :=
  ⟨c4_known_sizes.2.2.2.1, c4_known_sizes.2.2.2.2⟩

/-- Claim C5.  When some variable is unassigned, `select_unassigned_variable`
returns an unassigned variable in range, and any other unassigned
variable either has a strictly larger domain or has the same domain size
and a smaller index — i.e. the selection minimises `(domainSize, -index)`,
breaking domain-size ties towards the larger index. -/
theorem c5_mrv_selection (doms : Doms) (a : Assignment)
    (h : (List.range doms.length).filter (fun v => !(mem_assign v a)) ≠ []) :
    (select_unassigned_variable doms a < doms.length ∧
      mem_assign (select_unassigned_variable doms a) a = false) ∧
    ∀ u, u < doms.length → mem_assign u a = false →
      u ≠ select_unassigned_variable doms a →
      ((doms.getD (select_unassigned_variable doms a) []).length <
          (doms.getD u []).length ∨
        ((doms.getD (select_unassigned_variable doms a) []).length =
            (doms.getD u []).length ∧
          u < select_unassigned_variable doms a)) := by
  obtain ⟨hmem, hmin⟩ := select_mem_and_min doms a h
  rcases List.mem_filter.mp hmem with ⟨h1, h2⟩
  constructor
  · refine ⟨List.mem_range.mp h1, ?_⟩
    cases hma : mem_assign (select_unassigned_variable doms a) a
    · rfl
    · rw [hma] at h2; exact Bool.noConfusion h2
  · intro u hu hua hne
    have humem : u ∈ (List.range doms.length).filter (fun v => !(mem_assign v a)) :=
      List.mem_filter.mpr ⟨List.mem_range.mpr hu, by rw [hua]; rfl⟩
    have hnlt := hmin u humem
    rcases mrvLt_total doms (select_unassigned_variable doms a) u with hlt | heq | hlt
    · exact hlt
    · exact absurd heq.symm hne
    · exact absurd hlt hnlt

/-- Witness for C5: two unassigned variables with equal domain sizes; the
larger index is selected. -/
theorem c5_witness :
    (select_unassigned_variable [[0, 1], [0, 1]] [] < List.length [[0, 1], [0, 1]] ∧
      mem_assign (select_unassigned_variable [[0, 1], [0, 1]] []) [] = false) ∧
    ∀ u, u < List.length ([[0, 1], [0, 1]] : Doms) → mem_assign u ([] : Assignment) = false →
      u ≠ select_unassigned_variable [[0, 1], [0, 1]] [] →
      ((List.getD ([[0, 1], [0, 1]] : Doms) (select_unassigned_variable [[0, 1], [0, 1]] []) []).length <
          (List.getD ([[0, 1], [0, 1]] : Doms) u []).length ∨
        ((List.getD ([[0, 1], [0, 1]] : Doms) (select_unassigned_variable [[0, 1], [0, 1]] []) []).length =
            (List.getD ([[0, 1], [0, 1]] : Doms) u []).length ∧
          u < select_unassigned_variable [[0, 1], [0, 1]] [])) :=
  c5_mrv_selection [[0, 1], [0, 1]] [] (by decide)

/-- Claim C6.  `order_domain_values` returns a permutation of the
selected variable's domain, ordered by weakly descending LCV score. -/
theorem c6_lcv_ordering (doms : Doms) (var : Nat) (a : Assignment) :
    (order_domain_values doms var a).Perm (doms.getD var []) ∧
    (order_domain_values doms var a).Pairwise
      (fun x y => lcv_score doms var a y ≤ lcv_score doms var a x) :=
  ⟨order_domain_values_perm doms var a, order_domain_values_sorted doms var a⟩

/-- Claim C7.  When a revision of Xi against Xj removes something and
does not empty Xi's domain, the loop continues with the batch
`requeue` appended to the queue, and the pairs appearing in that batch
are exactly the `(k, i)` with `k < n`, `k ≠ j` (for `n ≥ 2`; each such
pair occurs once per constraint with first component `k`). -/
theorem c7_requeue_exactly (n fuel var_i var_j : Nat) (q : List (Nat × Nat))
    (doms dd : Doms) (hn : 2 ≤ n)
    (hrev : revise doms var_i var_j = (true, dd))
    (hne : (dd.getD var_i []).isEmpty = false) :
    ac3Aux (constraintsOf n) (fuel + 1) ((var_i, var_j) :: q) doms =
      ac3Aux (constraintsOf n) fuel (q ++ requeue (constraintsOf n) var_j var_i) dd ∧
    ∀ p : Nat × Nat, p ∈ requeue (constraintsOf n) var_j var_i ↔
      ∃ k, k < n ∧ k ≠ var_j ∧ p = (k, var_i) := by
  constructor
  · rw [ac3Aux_cons_true (constraintsOf n) hrev, if_neg (by rw [hne]; exact Bool.false_ne_true)]
  · intro p
    unfold requeue
    simp only [List.mem_map, List.mem_filter, bne_iff_ne, ne_eq]
    constructor
    · rintro ⟨q0, ⟨hq0, hq0j⟩, rfl⟩
      obtain ⟨k, m⟩ := q0
      have hm := (mem_constraintsOf n k m).mp hq0
      exact ⟨k, hm.1, by simpa using hq0j, rfl⟩
    · rintro ⟨k, hk, hkj, rfl⟩
      by_cases hk0 : k = 0
      · subst hk0
        refine ⟨(0, 1), ⟨?_, by simpa using hkj⟩, rfl⟩
        rw [mem_constraintsOf]
        exact ⟨hk, by omega, by omega⟩
      · refine ⟨(k, 0), ⟨?_, by simpa using hkj⟩, rfl⟩
        rw [mem_constraintsOf]
        exact ⟨hk, by omega, by omega⟩

/-- Witness for C7: `n = 2`, revising X0 against X1 on domains
`[[0, 2], [0]]` removes the value 2. -/
theorem c7_witness :
    ac3Aux (constraintsOf 2) (0 + 1) [(0, 1)] [[0, 2], [0]] =
      ac3Aux (constraintsOf 2) 0 ([] ++ requeue (constraintsOf 2) 1 0) [[0], [0]] ∧
    ∀ p : Nat × Nat, p ∈ requeue (constraintsOf 2) 1 0 ↔
      ∃ k, k < 2 ∧ k ≠ 1 ∧ p = (k, 0) :=
  c7_requeue_exactly 2 0 0 1 [] [[0, 2], [0]] [[0], [0]] (by decide) (by decide) (by decide)

/-- Claim C8.  `AC3` is idempotent: running it again on the domain state
left by a completed first run (from the initial domains of size `n`)
removes nothing further and returns the same boolean result. -/
theorem c8_ac3_idempotent (n : Nat) :
    AC3 (constraintsOf n) ((AC3 (constraintsOf n) (initDomains n)).2) =
      AC3 (constraintsOf n) (initDomains n) := by
  rw [AC3_init n]
  exact AC3_init n

/-- Claim C9.  Each `revise` step only ever shrinks each variable's
domain (the new domain is a sublist of the old one), the whole `AC3`
pass only shrinks domains, and after `AC3` runs on the initial state
every domain still has unique values all inside `[0, n)`.  The
backtracking phase takes the domains as a read-only argument in this
embedding, as in the source, so it cannot mutate them. -/
theorem c9_domain_invariants :
    (∀ (doms : Doms) (var_i var_j k : Nat),
      ((revise doms var_i var_j).2.getD k []).Sublist (doms.getD k [])) ∧
    (∀ (C : List (Nat × Nat)) (doms : Doms) (k : Nat),
      ((AC3 C doms).2.getD k []).Sublist (doms.getD k [])) ∧
    (∀ n k : Nat,
      ((AC3 (constraintsOf n) (initDomains n)).2.getD k []).Nodup ∧
      ∀ v ∈ (AC3 (constraintsOf n) (initDomains n)).2.getD k [], v < n) := by
  refine ⟨revise_getD_sublist, fun C doms k => (AC3_doms C doms).2 k, ?_⟩
  intro n k
  have hsub := (AC3_doms (constraintsOf n) (initDomains n)).2 k
  rw [initDomains_getD] at hsub
  by_cases hk : k < n
  · rw [if_pos hk] at hsub
    exact ⟨hsub.nodup (List.nodup_range n),
      fun v hv => List.mem_range.mp (hsub.subset hv)⟩
  · rw [if_neg hk, List.sublist_nil] at hsub
    rw [hsub]
    exact ⟨List.nodup_nil, fun v hv => absurd hv (List.not_mem_nil v)⟩

/-- Witness for C9 at `n = 1`, `k = 0`. -/
theorem c9_witness :
    ((AC3 (constraintsOf 1) (initDomains 1)).2.getD 0 []).Nodup ∧ (0 : Nat) < 1 :=
  ⟨(c9_domain_invariants.2.2 1 0).1, (c9_domain_invariants.2.2 1 0).2 0 (by decide)⟩

/-- Claim C10.  `_backtrack` is atomic on failure: for a well-formed
entry assignment, if the call returns `None` then the assignment dict is
exactly as it was at entry; if it returns a result, the final dict is
that result, which extends the entry assignment and assigns one value
per variable (full length, distinct in-range keys). -/
theorem c10_backtrack_atomic (doms : Doms) (fuel : Nat) (a : Assignment)
    (hg : GoodA doms a) :
    ((backtrack doms fuel a).1 = none → (backtrack doms fuel a).2 = a) ∧
    (∀ r, (backtrack doms fuel a).1 = some r →
      (backtrack doms fuel a).2 = r ∧ (∃ t, r = a ++ t) ∧
      r.length = doms.length ∧ (keysOf r).Nodup ∧ ∀ p ∈ r, p.1 < doms.length) := by
  obtain ⟨h1, h2⟩ := backtrack_ok doms fuel a hg
  refine ⟨h1, fun r hr => ?_⟩
  obtain ⟨hst, hext, hgr, hlen, _⟩ := h2 r hr
  exact ⟨hst, hext, hlen, hgr.1, hgr.2⟩

/-- Witness for C10 on a one-variable board. -/
theorem c10_witness :
    ((backtrack [[0]] 2 []).1 = none → (backtrack [[0]] 2 []).2 = []) ∧
    (∀ r, (backtrack [[0]] 2 []).1 = some r →
      (backtrack [[0]] 2 []).2 = r ∧ (∃ t, r = [] ++ t) ∧
      r.length = List.length ([[0]] : Doms) ∧ (keysOf r).Nodup ∧
      ∀ p ∈ r, p.1 < List.length ([[0]] : Doms)) :=
  c10_backtrack_atomic [[0]] 2 [] (by decide)
